import Mathlib

/-!
Verification of the Heys linear-cryptanalysis tool (the `heys` Python
package: `cipher.py`, `s_box.py`, `utilities.py`, `branch_bound.py`,
`m2.py`, `attack.py`).

The Python source operates on numpy `uint16` arrays; we embed 16-bit words
as `Nat` with explicit bounds `< 65536` and model the vectorised numpy
operations element-wise.  Lookup tables of length 65536 that the source
builds once and then indexes are embedded as the pointwise function
computing the table entry; `float64` probabilities are embedded as `ℚ`
(the claims settled here are structural, not about rounding).
-/

namespace HeysSpec

/-! ### Bit utilities (`utilities.py`) -/

/-- Entry `n` of the table built by `calculate_hamming_weight` in
`utilities.py` (`weight_table[number] = bin(number).count("1")`), i.e. the
popcount of the index.  The table is built for 16-bit (or 4-bit) index
ranges, so we compute the popcount by scanning the 16 possible bit
positions; on every index the source ever uses (`< 2^16`) this is the
exact popcount. -/
def hammingWeight (n : Nat) : Nat :=
  List.foldl (fun acc i => acc + ((n >>> i) &&& 1)) 0 (List.range 16)

/-- `bitwise_dot(x, y) = hamming_weight[x & y] & 0b1` (`utilities.py`):
the GF(2) inner product of two masks. -/
def bitwiseDot (x y : Nat) : Nat := hammingWeight (x &&& y) &&& 1

/-! ### Cipher core (`cipher.py`, `s_box.py`) -/

/-- The 4-bit S-box `S_BOX` from `heys/s_box.py`:
`[0xf,0x6,0x5,0x8,0xe,0xb,0xa,0x4,0xc,0x0,0x3,0x7,0x2,0x9,0x1,0xd]`. -/
def S_BOX : List Nat := [15, 6, 5, 8, 14, 11, 10, 4, 12, 0, 3, 7, 2, 9, 1, 13]

/-- Inverse 4-bit S-box derivation, as in `Heys._calculate_s_block_inverse`
(`cipher.py`) and `_get_inverse_sbox` (`s_box.py`): entry `e` is the first
index `i` with `s[i] = e` (numpy `int(where(transformed == element)[0])`). -/
def inverseSbox (s : List Nat) : List Nat :=
  (List.range 16).map (fun e => s.indexOf e)

/-- One iteration of the fragment loop shared by `Heys._s_block_raw`
(`cipher.py`) and `_sbox_transformation` (`s_box.py`):
`elements &= ~(0b1111 << 4f); elements |= t[(elements >> 4f) & 0b1111] << 4f`.
numpy's `~` on `uint16` is complement within 16 bits, i.e. `65535 ^^^ ·`. -/
def sBlockStep (t : List Nat) (e f : Nat) : Nat :=
  (e &&& (65535 ^^^ (15 <<< (4 * f)))) |||
    ((t.getD ((e >>> (4 * f)) &&& 15) 0) <<< (4 * f))

/-- The entry at index `w` of the 65536-entry table computed by the
`for fragment_id in range(4)` loop of `Heys._s_block_raw` /
`_sbox_transformation`, applied to a fresh array holding all 16-bit words
in order (this is exactly what `s_box.calculate_sbox` computes for the
forward table, and what `_sbox_transformation` of the inverse 4-bit S-box
computes for the inverse table). -/
def sBlockRaw (t : List Nat) (w : Nat) : Nat :=
  List.foldl (sBlockStep t) w (List.range 4)

/-- Entry `w` of the table the `Heys` constructor actually stores:
`_calculate_s_block` passes the *same* numpy array `words` to both
`_s_block_raw(elements=words)` and `_s_block_raw(elements=words, inverse=True)`;
`_s_block_raw` mutates `elements` in place (`&=`, `|=`) and returns it, so
the second call applies the inverse substitution on top of the output of
the first, and both components of the returned tuple alias this single
array.  Hence `self._s_block` and `self._s_block_inverse` are one and the
same table, whose entry at `w` is the inverse nibble-substitution applied
to the forward nibble-substitution of `w`. -/
def heysSBlockTable (s : List Nat) (w : Nat) : Nat :=
  sBlockRaw (inverseSbox s) (sBlockRaw s w)

/-- The expanded S-box formula claimed by the spec (§4.2):
`SBOX16[w] = Σ_{b=0..3} S[(w >> 4b) & 0xF] << 4b`. -/
def specSbox16 (s : List Nat) (w : Nat) : Nat :=
  (s.getD (w &&& 15) 0) + ((s.getD ((w >>> 4) &&& 15) 0) <<< 4) +
    ((s.getD ((w >>> 8) &&& 15) 0) <<< 8) +
    ((s.getD ((w >>> 12) &&& 15) 0) <<< 12)

/-- Entry `w` of the table built by `Heys._calculate_permutation`
(`cipher.py`): for each `bit_id < 16` the input bit at
`bit_id = 4*block_id + bit_pos` is OR-ed into output position
`bit_pos * 4 + block_id`. -/
def heysPerm (w : Nat) : Nat :=
  List.foldl
    (fun acc bit => acc ||| (((w >>> bit) &&& 1) <<< ((bit % 4) * 4 + bit / 4)))
    0 (List.range 16)

/-- numpy `uint16.byteswap`: swap the two bytes of a 16-bit word. -/
def bswap16 (w : Nat) : Nat := w % 256 * 256 + w / 256

/-- One encryption round of `Heys.encrypt`:
`output ^= key; output = s_block[output]; output = permutation[output]`. -/
def heysRound (s : List Nat) (k w : Nat) : Nat :=
  heysPerm (heysSBlockTable s (w ^^^ k))

/-- One decryption round of `Heys.decrypt`:
`output = permutation[output]; output = s_block_inverse[output]; output ^= key`
(recall that `s_block_inverse` aliases the same table as `s_block`). -/
def heysRoundInv (s : List Nat) (k w : Nat) : Nat :=
  heysSBlockTable s (heysPerm w) ^^^ k

/-- `Heys.encrypt` on one block: the constructor byteswaps the (copied) key
schedule, encrypt copies and byteswaps the message, runs
`rounds = len(keys) - 1` rounds with `keys[0] .. keys[rounds-1]`, then XORs
`keys[-1]`. -/
def encrypt (s : List Nat) (keys : List Nat) (m : Nat) : Nat :=
  ((keys.map bswap16).dropLast.foldl (fun w k => heysRound s k w) (bswap16 m)) ^^^
    (keys.map bswap16).getLastD 0

/-- `Heys.decrypt` on one block: copy (without byteswap), XOR `keys[-1]`,
run the rounds in reverse order, and byteswap on the way out. -/
def decrypt (s : List Nat) (keys : List Nat) (c : Nat) : Nat :=
  bswap16 ((keys.map bswap16).dropLast.foldr (fun k w => heysRoundInv s k w)
    (c ^^^ (keys.map bswap16).getLastD 0))

/-! ### S-box linear approximation table (`utilities.py`, `branch_bound.py`) -/

/-- Entry `(a, b)` of the matrix computed by `sbox_linear_approximations` in
`utilities.py`: the number of 4-bit inputs `x` on which
`bitwise_dot(a, x) == bitwise_dot(b, s[x])`, summed as booleans, minus 8
(`return approximations - 8`; the matrix has dtype `int16`).
(The separate `sbox_linear_approximations` defined in `branch_bound.py`
shadows this one inside `branch_bound` and cannot run at all: it passes a
`transformation` keyword that `utilities.linear_potential` does not accept.) -/
def sboxLinearApproximations (s : List Nat) (a b : Nat) : Int :=
  (((List.range 16).countP
    (fun x => bitwiseDot a x == bitwiseDot b (s.getD x 0)) : Nat) : Int) - 8

/-- Modelled from the spec: the LAT formula of §4.3 and claim C4,
`L[α,β] = ((1/16) · Σ_{x<16} sign(x,α,β))²` with `sign = +1` when the masked
parities agree and `-1` otherwise (equivalently `((2m-16)/16)²` for `m`
matches). -/
def specLP (s : List Nat) (a b : Nat) : ℚ :=
  ((((List.range 16).map
    (fun x => if bitwiseDot a x = bitwiseDot b (s.getD x 0) then (1 : ℚ)
      else -1)).sum) / 16) ^ 2

/-! ### Branch and bound (`branch_bound.py`)

`float64` probabilities are modelled as `ℚ`; the LAT the source would use is
a parameter `lat` (the source's own call
`sbox_linear_approximations(s_box=heys.sbox_fragment)` cannot produce one,
see C4), and the per-round `randint(low=1, high=1 << 16, size=10000)` sample
is a parameter `draws` (the source draws it fresh from the global numpy RNG
each round). -/

/-- `approximation_probability` (`branch_bound.py`): product over the four
nibbles of the LAT entries selected by the input mask and the (already
permuted) output mask. -/
def approximationProbability (lat : Nat → Nat → ℚ) (γ β : Nat) : ℚ :=
  List.foldl
    (fun acc f => acc * lat ((γ >>> (4 * f)) &&& 15) ((β >>> (4 * f)) &&& 15))
    1 (List.range 4)

/-- One round of the frontier loop of `branch_bound`.  `prev` is the previous
round's dict as an association list (distinct keys, insertion order), `draws`
this round's 10000 samples.  The Python `defaultdict` accumulates, for every
previous entry `(γ, p)` and every draw `β`, the contribution
`p * q(γ → perm β)`; since the contribution depends only on `(γ, β)`, each
distinct drawn `β` ends up with `count(β) · Σ_{(γ,p)} p · q(γ → perm β)`, its
keys are the distinct draws (none at all when `prev` is empty, since then the
loop body never runs), and the final comprehension keeps the entries with
`p > threshold`. -/
def bbRound (lat : Nat → Nat → ℚ) (perm : Nat → Nat) (threshold : ℚ)
    (prev : List (Nat × ℚ)) (draws : List Nat) : List (Nat × ℚ) :=
  if prev.isEmpty then []
  else
    draws.dedup.filterMap (fun β =>
      if threshold < (draws.count β : ℚ) *
          (prev.map (fun gp => gp.2 * approximationProbability lat gp.1 (perm β))).sum
      then some (β, (draws.count β : ℚ) *
          (prev.map (fun gp => gp.2 * approximationProbability lat gp.1 (perm β))).sum)
      else none)

/-- `branch_bound` (`branch_bound.py`): starting from `{alpha: 1}`, the
frontier round runs once per iteration of
`for round_id in range(heys.rounds)` — the cipher's round count
`R = len(keys) - 1`; `draws r` is the sample drawn in round `r`. -/
def branchBound (lat : Nat → Nat → ℚ) (perm : Nat → Nat) (α : Nat)
    (threshold : ℚ) (rounds : Nat) (draws : Nat → List Nat) :
    List (Nat × ℚ) :=
  (List.range rounds).foldl
    (fun prev r => bbRound lat perm threshold prev (draws r)) [(α, 1)]

/-! ### M2 key search (`m2.py`) -/

/-- The statistic `possible_keys[key]` computed in `_key_search_process`
(`m2.py`) for one approximation `(α, β)` and key guess `k` over the corpus
`(X, Y)`: `abs(Σ_i ±1)` where the sign is `+1` exactly when
`bitwise_dot(α, PERM[SBOX16[X_i ^ k]]) ^ bitwise_dot(β, Y_i) == 0`
(`PERM` and `SBOX16` being the `Heys` instance's tables).
This models the element-wise numpy computation for the corpora of the data
model, i.e. *equal-length* `X` and `Y`, where `List.zip` pairs the elements
exactly; on mismatched lengths numpy would not truncate like `zip` but
raise a broadcast `ValueError` in the XOR of the two correlation arrays (or
broadcast a length-1 operand), so statements about mismatched corpora must
not be read off this definition. -/
def m2Score (s : List Nat) (α β k : Nat) (X Y : List Nat) : Nat :=
  (((X.zip Y).map (fun xy =>
      if bitwiseDot α (heysPerm (heysSBlockTable s (xy.1 ^^^ k))) ^^^
          bitwiseDot β xy.2 = 0
      then (1 : Int) else -1)).sum).natAbs

/-- The statistic in the form claim C8 states it:
`T_k = Σ_i (-1) ^ (parity(α, PERM[SBOX16[X_i XOR k]]) XOR parity(β, Y_i))`. -/
def m2ClaimT (s : List Nat) (α β k : Nat) (X Y : List Nat) : Int :=
  ((X.zip Y).map (fun xy =>
      (-1 : Int) ^ (bitwiseDot α (heysPerm (heysSBlockTable s (xy.1 ^^^ k))) ^^^
        bitwiseDot β xy.2))).sum

/-- `argsort(possible_keys)[-top_keys:]` (`m2.py`): the indices of the
`top_keys` largest scores.  numpy's `argsort` sorts the 65536 key indices by
ascending score (breaking ties in an implementation-defined order; we model
it with a merge sort) and the slice keeps the last `top_keys` of them. -/
def argsortTopKeys (score : Nat → Nat) (topKeys : Nat) : List Nat :=
  ((List.range 65536).mergeSort (fun i j => score i ≤ score j)).drop
    (65536 - topKeys)

/-- The keys one `_key_search_process` worker appends to the shared
`output_keys` list: for each β of its slice, in order, the `top_keys` highest
scoring key indices. -/
def keySearchProcess (s : List Nat) (α : Nat) (betas : List Nat)
    (X Y : List Nat) (topKeys : Nat) : List Nat :=
  betas.flatMap (fun β => argsortTopKeys (fun k => m2Score s α β k X Y) topKeys)

/-- The keys `m2` (`m2.py`) collects for one α-bucket with `P` worker
processes: `betas_split = len(betas) // P` and worker `pid` receives
`betas[pid*split : (pid+1)*split]` (any remainder of the division is handed
to no worker).  The workers' outputs are gathered in the shared manager
list; we concatenate them in `pid` order — claims about the result are
stated up to multiset, the append order across live processes being
scheduler-dependent. -/
def m2Alpha (s : List Nat) (α : Nat) (betas : List Nat) (X Y : List Nat)
    (topKeys : Nat) (P : Nat) : List Nat :=
  (List.range P).flatMap (fun pid =>
    keySearchProcess s α
      ((betas.drop (pid * (betas.length / P))).take (betas.length / P))
      X Y topKeys)

/-! ### Attack driver (`attack.py`) -/

/-- `approximations_amount` in `calculate_approximations` (`attack.py`):
total number of `(α, β)` approximations over all α-buckets. -/
def approximationsAmount (approx : List (Nat × List (Nat × ℚ))) : Nat :=
  (approx.map (fun ab => ab.2.length)).sum

/-- Python `dict.update`: existing keys keep their position and receive the
new value, new keys are appended in the update's order. -/
def dictUpdate (d u : List (Nat × ℚ)) : List (Nat × ℚ) :=
  d.map (fun kv => (kv.1, ((u.lookup kv.1).getD kv.2))) ++
    u.filter (fun kv => (d.lookup kv.1).isNone)

/-- The `for alpha in approximations` loop of `calculate_approximations`
(`attack.py`): update each α's dict with the `branch_bound` result (`bb α`),
breaking as soon as the running total reaches `max_approximations_number`. -/
def calcApproxGo (bb : Nat → List (Nat × ℚ)) (maxN : Nat) :
    List (Nat × List (Nat × ℚ)) → List (Nat × List (Nat × ℚ)) →
      List (Nat × List (Nat × ℚ))
  | done, [] => done
  | done, (α, βs) :: rest =>
    let βs' := dictUpdate βs (bb α)
    if maxN ≤ approximationsAmount (done ++ (α, βs') :: rest) then
      done ++ (α, βs') :: rest
    else calcApproxGo bb maxN (done ++ [(α, βs')]) rest

/-- `calculate_approximations` (`attack.py`): returns the table unchanged as
soon as it already holds `max_approximations_number` approximations,
otherwise runs the per-α search loop. -/
def calculateApproximations (bb : Nat → List (Nat × ℚ))
    (approx : List (Nat × List (Nat × ℚ))) (maxN : Nat) :
    List (Nat × List (Nat × ℚ)) :=
  if maxN ≤ approximationsAmount approx then approx
  else calcApproxGo bb maxN [] approx

/-- `attack` (`attack.py`): runs `calculate_approximations`, then `m2` over
every α-bucket (with that bucket's β keys, in dict order), and returns the
approximations together with the emitted key candidates (whose `Counter` is
the returned key-vote map).  Note there is no validation of the corpus
`(X, Y)` anywhere on this path. -/
def attack (s : List Nat) (bb : Nat → List (Nat × ℚ)) (X Y : List Nat)
    (approx : List (Nat × List (Nat × ℚ))) (maxN topKeys P : Nat) :
    List (Nat × List (Nat × ℚ)) × List Nat :=
  (calculateApproximations bb approx maxN,
    (calculateApproximations bb approx maxN).flatMap
      (fun ab => m2Alpha s ab.1 (ab.2.map Prod.fst) X Y topKeys P))

/-! ### Buffer-level model of the numpy array operations (`cipher.py`)

To settle the frame claims about in-place mutation we model numpy arrays as
buffers in a store (indexed by allocation order): `copy()` allocates, the
in-place operators (`byteswap(inplace=True)`, `^=`) write to a buffer, and
fancy indexing (`table[output]`) allocates a fresh result buffer. -/

abbrev Store := List (List Nat)

def readBuf (σ : Store) (r : Nat) : List Nat := σ.getD r []

def writeBuf (σ : Store) (r : Nat) (b : List Nat) : Store := σ.set r b

def alloc (σ : Store) (b : List Nat) : Store × Nat := (σ ++ [b], σ.length)

/-- Buffer-level model of the key handling in `Heys.__init__`:
`self._keys = keys.copy().byteswap(inplace=True)` — allocate a copy of the
caller's array and byteswap the copy in place. -/
def heysInitBuffers (σ : Store) (keysRef : Nat) : Store × Nat :=
  let a := alloc σ (readBuf σ keysRef)
  (writeBuf a.1 a.2 ((readBuf a.1 a.2).map bswap16), a.2)

/-- Buffer-level model of one round body of `Heys.encrypt`: the in-place
`output ^= keys[round_id]` followed by the rebinding table lookups
`output = s_block[output]` and `output = permutation[output]`, each of which
allocates a fresh result buffer. -/
def encryptRoundBuffers (s : List Nat) (acc : Store × Nat) (k : Nat) :
    Store × Nat :=
  let σx := writeBuf acc.1 acc.2 ((readBuf acc.1 acc.2).map (fun w => w ^^^ k))
  let b := alloc σx ((readBuf σx acc.2).map (heysSBlockTable s))
  alloc b.1 ((readBuf b.1 b.2).map heysPerm)

/-- Buffer-level model of `Heys.encrypt`: `output = message.copy()` (fresh
buffer) followed by the in-place `byteswap`, the round loop, and the final
in-place `output ^= keys[-1]`.  Returns the store and the result buffer's
ref. -/
def encryptBuffers (s : List Nat) (keys : List Nat) (σ : Store) (msgRef : Nat) :
    Store × Nat :=
  let a := alloc σ (readBuf σ msgRef)
  let σ1 := writeBuf a.1 a.2 ((readBuf a.1 a.2).map bswap16)
  let st := (keys.map bswap16).dropLast.foldl (encryptRoundBuffers s) (σ1, a.2)
  (writeBuf st.1 st.2 ((readBuf st.1 st.2).map
      (fun w => w ^^^ (keys.map bswap16).getLastD 0)), st.2)

/-- Buffer-level model of one (reversed) round body of `Heys.decrypt`: the
rebinding lookups `output = permutation[output]`,
`output = s_block_inverse[output]` (fresh buffers) and the in-place
`output ^= keys[round_id]`. -/
def decryptRoundBuffers (s : List Nat) (k : Nat) (acc : Store × Nat) :
    Store × Nat :=
  let b := alloc acc.1 ((readBuf acc.1 acc.2).map heysPerm)
  let c := alloc b.1 ((readBuf b.1 b.2).map (heysSBlockTable s))
  (writeBuf c.1 c.2 ((readBuf c.1 c.2).map (fun w => w ^^^ k)), c.2)

/-- Buffer-level model of `Heys.decrypt`: `output = ciphertext.copy()`, the
in-place XOR with `keys[-1]`, the reversed round loop, and the final
in-place `byteswap`. -/
def decryptBuffers (s : List Nat) (keys : List Nat) (σ : Store) (ctRef : Nat) :
    Store × Nat :=
  let a := alloc σ (readBuf σ ctRef)
  let σ1 := writeBuf a.1 a.2 ((readBuf a.1 a.2).map
    (fun w => w ^^^ (keys.map bswap16).getLastD 0))
  let st := (keys.map bswap16).dropLast.foldr (decryptRoundBuffers s) (σ1, a.2)
  (writeBuf st.1 st.2 ((readBuf st.1 st.2).map bswap16), st.2)

/-! ### Bit-level helper lemmas -/

theorem and_fifteen (x : Nat) : x &&& 15 = x % 16 := by
  have h := Nat.and_pow_two_sub_one_eq_mod x 4
  norm_num at h
  exact h

theorem shiftRight_and_fifteen (x k : Nat) :
    (x >>> k) &&& 15 = x / 2 ^ k % 16 := by
  rw [and_fifteen, Nat.shiftRight_eq_div_pow]

theorem nibble_lt (x k : Nat) : x / 2 ^ k % 16 < 16 := Nat.mod_lt _ (by norm_num)

theorem getD_lt_of_forall {t : List Nat} (ht : ∀ v ∈ t, v < 16) (x : Nat) :
    t.getD x 0 < 16 := by
  rcases Nat.lt_or_ge x t.length with h | h
  · rw [List.getD_eq_getElem t 0 h]
    exact ht _ (List.getElem_mem h)
  · rw [List.getD_eq_default t 0 h]
    norm_num

theorem sBlockStep_arg (t : List Nat) (e f : Nat) :
    t.getD ((e >>> (4 * f)) &&& 15) 0 = t.getD (e / 16 ^ f % 16) 0 := by
  have h : (e >>> (4 * f)) &&& 15 = e / 16 ^ f % 16 := by
    rw [shiftRight_and_fifteen, Nat.pow_mul]
  rw [h]

theorem sBlockStep0 (t : List Nat) (e : Nat) (he : e < 65536)
    (hv : t.getD (e % 16) 0 < 16) :
    sBlockStep t e 0 = t.getD (e % 16) 0 + e / 16 * 16 := by
  show (e &&& 65520) ||| t.getD (e &&& 15) 0 = _
  rw [and_fifteen]
  set v := t.getD (e % 16) 0 with hvdef
  apply Nat.eq_of_testBit_eq
  intro j
  rcases Nat.lt_or_ge j 16 with hj | hj
  · interval_cases j <;>
    · rw [Bool.eq_iff_iff]
      simp only [Nat.testBit_or, Nat.testBit_and]
      simp only [Nat.testBit_to_div_mod, Bool.or_eq_true, Bool.and_eq_true,
        decide_eq_true_eq]
      try norm_num
      all_goals omega
  · have hle : (2 : Nat) ^ 16 ≤ 2 ^ j := Nat.pow_le_pow_right (by norm_num) hj
    have hb1 : e &&& 65520 < 2 ^ j :=
      lt_of_lt_of_le (Nat.and_lt_two_pow e (by norm_num)) hle
    have hb2 : v < 2 ^ j := lt_of_lt_of_le (by omega) hle
    have hb3 : v + e / 16 * 16 < 2 ^ j := lt_of_lt_of_le (by omega) hle
    rw [Nat.testBit_lt_two_pow (Nat.or_lt_two_pow hb1 hb2),
      Nat.testBit_lt_two_pow hb3]

theorem sBlockStep1 (t : List Nat) (e : Nat) (he : e < 65536)
    (hv : t.getD (e / 16 % 16) 0 < 16) :
    sBlockStep t e 1 = e % 16 + t.getD (e / 16 % 16) 0 * 16 + e / 256 * 256 := by
  show (e &&& 65295) ||| (t.getD ((e >>> 4) &&& 15) 0 <<< 4) = _
  have h1 : (e >>> 4) &&& 15 = e / 16 % 16 := by
    rw [shiftRight_and_fifteen]
    norm_num
  rw [h1]
  set v := t.getD (e / 16 % 16) 0 with hvdef
  have h2 : v <<< 4 = v * 16 := by
    rw [Nat.shiftLeft_eq]
  rw [h2]
  apply Nat.eq_of_testBit_eq
  intro j
  rcases Nat.lt_or_ge j 16 with hj | hj
  · interval_cases j <;>
    · rw [Bool.eq_iff_iff]
      simp only [Nat.testBit_or, Nat.testBit_and]
      simp only [Nat.testBit_to_div_mod, Bool.or_eq_true, Bool.and_eq_true,
        decide_eq_true_eq]
      try norm_num
      all_goals omega
  · have hle : (2 : Nat) ^ 16 ≤ 2 ^ j := Nat.pow_le_pow_right (by norm_num) hj
    have hb1 : e &&& 65295 < 2 ^ j :=
      lt_of_lt_of_le (Nat.and_lt_two_pow e (by norm_num)) hle
    have hb2 : v * 16 < 2 ^ j := lt_of_lt_of_le (by omega) hle
    have hb3 : e % 16 + v * 16 + e / 256 * 256 < 2 ^ j :=
      lt_of_lt_of_le (by omega) hle
    rw [Nat.testBit_lt_two_pow (Nat.or_lt_two_pow hb1 hb2),
      Nat.testBit_lt_two_pow hb3]

theorem sBlockStep2 (t : List Nat) (e : Nat) (he : e < 65536)
    (hv : t.getD (e / 256 % 16) 0 < 16) :
    sBlockStep t e 2 = e % 256 + t.getD (e / 256 % 16) 0 * 256 + e / 4096 * 4096 := by
  show (e &&& 61695) ||| (t.getD ((e >>> 8) &&& 15) 0 <<< 8) = _
  have h1 : (e >>> 8) &&& 15 = e / 256 % 16 := by
    rw [shiftRight_and_fifteen]
    norm_num
  rw [h1]
  set v := t.getD (e / 256 % 16) 0 with hvdef
  have h2 : v <<< 8 = v * 256 := by
    rw [Nat.shiftLeft_eq]
  rw [h2]
  apply Nat.eq_of_testBit_eq
  intro j
  rcases Nat.lt_or_ge j 16 with hj | hj
  · interval_cases j <;>
    · rw [Bool.eq_iff_iff]
      simp only [Nat.testBit_or, Nat.testBit_and]
      simp only [Nat.testBit_to_div_mod, Bool.or_eq_true, Bool.and_eq_true,
        decide_eq_true_eq]
      try norm_num
      all_goals omega
  · have hle : (2 : Nat) ^ 16 ≤ 2 ^ j := Nat.pow_le_pow_right (by norm_num) hj
    have hb1 : e &&& 61695 < 2 ^ j :=
      lt_of_lt_of_le (Nat.and_lt_two_pow e (by norm_num)) hle
    have hb2 : v * 256 < 2 ^ j := lt_of_lt_of_le (by omega) hle
    have hb3 : e % 256 + v * 256 + e / 4096 * 4096 < 2 ^ j :=
      lt_of_lt_of_le (by omega) hle
    rw [Nat.testBit_lt_two_pow (Nat.or_lt_two_pow hb1 hb2),
      Nat.testBit_lt_two_pow hb3]

theorem sBlockStep3 (t : List Nat) (e : Nat) (_he : e < 65536)
    (hv : t.getD (e / 4096 % 16) 0 < 16) :
    sBlockStep t e 3 = e % 4096 + t.getD (e / 4096 % 16) 0 * 4096 := by
  show (e &&& 4095) ||| (t.getD ((e >>> 12) &&& 15) 0 <<< 12) = _
  have h1 : (e >>> 12) &&& 15 = e / 4096 % 16 := by
    rw [shiftRight_and_fifteen]
    norm_num
  rw [h1]
  set v := t.getD (e / 4096 % 16) 0 with hvdef
  have h2 : v <<< 12 = v * 4096 := by
    rw [Nat.shiftLeft_eq]
  rw [h2]
  apply Nat.eq_of_testBit_eq
  intro j
  rcases Nat.lt_or_ge j 16 with hj | hj
  · interval_cases j <;>
    · rw [Bool.eq_iff_iff]
      simp only [Nat.testBit_or, Nat.testBit_and]
      simp only [Nat.testBit_to_div_mod, Bool.or_eq_true, Bool.and_eq_true,
        decide_eq_true_eq]
      try norm_num
      all_goals omega
  · have hle : (2 : Nat) ^ 16 ≤ 2 ^ j := Nat.pow_le_pow_right (by norm_num) hj
    have hb1 : e &&& 4095 < 2 ^ j :=
      lt_of_lt_of_le (Nat.and_lt_two_pow e (by norm_num)) hle
    have hb2 : v * 4096 < 2 ^ j := lt_of_lt_of_le (by omega) hle
    have hb3 : e % 4096 + v * 4096 < 2 ^ j := lt_of_lt_of_le (by omega) hle
    rw [Nat.testBit_lt_two_pow (Nat.or_lt_two_pow hb1 hb2),
      Nat.testBit_lt_two_pow hb3]

theorem sBlockRaw_eq_steps (t : List Nat) (w : Nat) :
    sBlockRaw t w =
      sBlockStep t (sBlockStep t (sBlockStep t (sBlockStep t w 0) 1) 2) 3 := rfl

/-- The fragment loop of `_s_block_raw` / `_sbox_transformation` substitutes
each of the four nibbles of its input independently through the 4-bit table. -/
theorem sBlockRaw_arith (t : List Nat) (ht : ∀ v ∈ t, v < 16) (w : Nat)
    (hw : w < 65536) :
    sBlockRaw t w =
      t.getD (w % 16) 0 + t.getD (w / 16 % 16) 0 * 16 +
        t.getD (w / 256 % 16) 0 * 256 + t.getD (w / 4096 % 16) 0 * 4096 := by
  have hg := getD_lt_of_forall ht
  rw [sBlockRaw_eq_steps, sBlockStep0 t w hw (hg _)]
  set a0 := t.getD (w % 16) 0 with ha0
  have hb0 : a0 < 16 := hg _
  have hlt1 : a0 + w / 16 * 16 < 65536 := by omega
  rw [sBlockStep1 t _ hlt1 (hg _)]
  have harg1 : (a0 + w / 16 * 16) / 16 % 16 = w / 16 % 16 := by omega
  have hmod1 : (a0 + w / 16 * 16) % 16 = a0 := by omega
  have hdiv1 : (a0 + w / 16 * 16) / 256 = w / 256 := by omega
  rw [harg1, hmod1, hdiv1]
  set a1 := t.getD (w / 16 % 16) 0 with ha1
  have hb1 : a1 < 16 := hg _
  have hlt2 : a0 + a1 * 16 + w / 256 * 256 < 65536 := by omega
  rw [sBlockStep2 t _ hlt2 (hg _)]
  have harg2 : (a0 + a1 * 16 + w / 256 * 256) / 256 % 16 = w / 256 % 16 := by omega
  have hmod2 : (a0 + a1 * 16 + w / 256 * 256) % 256 = a0 + a1 * 16 := by omega
  have hdiv2 : (a0 + a1 * 16 + w / 256 * 256) / 4096 = w / 4096 := by omega
  rw [harg2, hmod2, hdiv2]
  set a2 := t.getD (w / 256 % 16) 0 with ha2
  have hb2 : a2 < 16 := hg _
  have hlt3 : a0 + a1 * 16 + a2 * 256 + w / 4096 * 4096 < 65536 := by omega
  rw [sBlockStep3 t _ hlt3 (hg _)]
  have harg3 : (a0 + a1 * 16 + a2 * 256 + w / 4096 * 4096) / 4096 % 16
      = w / 4096 % 16 := by omega
  have hmod3 : (a0 + a1 * 16 + a2 * 256 + w / 4096 * 4096) % 4096
      = a0 + a1 * 16 + a2 * 256 := by omega
  rw [harg3, hmod3]

theorem sBlockRaw_lt (t : List Nat) (ht : ∀ v ∈ t, v < 16) (w : Nat)
    (hw : w < 65536) : sBlockRaw t w < 65536 := by
  have hg := getD_lt_of_forall ht
  rw [sBlockRaw_arith t ht w hw]
  have h0 := hg (w % 16)
  have h1 := hg (w / 16 % 16)
  have h2 := hg (w / 256 % 16)
  have h3 := hg (w / 4096 % 16)
  omega

theorem specSbox16_arith (t : List Nat) (w : Nat) :
    specSbox16 t w =
      t.getD (w % 16) 0 + t.getD (w / 16 % 16) 0 * 16 +
        t.getD (w / 256 % 16) 0 * 256 + t.getD (w / 4096 % 16) 0 * 4096 := by
  unfold specSbox16
  have e1 : (w >>> 4) &&& 15 = w / 16 % 16 := by
    rw [shiftRight_and_fifteen]; norm_num
  have e2 : (w >>> 8) &&& 15 = w / 256 % 16 := by
    rw [shiftRight_and_fifteen]; norm_num
  have e3 : (w >>> 12) &&& 15 = w / 4096 % 16 := by
    rw [shiftRight_and_fifteen]; norm_num
  rw [and_fifteen, e1, e2, e3, Nat.shiftLeft_eq, Nat.shiftLeft_eq, Nat.shiftLeft_eq]

/-- `_sbox_transformation` computes exactly the spec's nibble-wise expansion. -/
theorem sBlockRaw_eq_specSbox16 (t : List Nat) (ht : ∀ v ∈ t, v < 16) (w : Nat)
    (hw : w < 65536) : sBlockRaw t w = specSbox16 t w := by
  rw [sBlockRaw_arith t ht w hw, specSbox16_arith]

theorem S_BOX_entries : ∀ v ∈ S_BOX, v < 16 := by decide

theorem inverseSbox_S_BOX_entries : ∀ v ∈ inverseSbox S_BOX, v < 16 := by decide

theorem inverseSbox_S_BOX_leftInv :
    ∀ n, n < 16 → (inverseSbox S_BOX).getD (S_BOX.getD n 0) 0 = n := by decide

/-- The table the `Heys` constructor stores (both as `s_block` and as
`s_block_inverse`) is the identity on 16-bit words: the in-place aliasing in
`_calculate_s_block` makes the inverse pass cancel the forward pass. -/
theorem heysSBlockTable_id (w : Nat) (hw : w < 65536) :
    heysSBlockTable S_BOX w = w := by
  unfold heysSBlockTable
  rw [sBlockRaw_arith S_BOX S_BOX_entries w hw]
  have hg := getD_lt_of_forall S_BOX_entries
  have h0 := hg (w % 16)
  have h1 := hg (w / 16 % 16)
  have h2 := hg (w / 256 % 16)
  have h3 := hg (w / 4096 % 16)
  set a0 := S_BOX.getD (w % 16) 0 with ha0
  set a1 := S_BOX.getD (w / 16 % 16) 0 with ha1
  set a2 := S_BOX.getD (w / 256 % 16) 0 with ha2
  set a3 := S_BOX.getD (w / 4096 % 16) 0 with ha3
  have hx : a0 + a1 * 16 + a2 * 256 + a3 * 4096 < 65536 := by omega
  rw [sBlockRaw_arith _ inverseSbox_S_BOX_entries _ hx]
  have e0 : (a0 + a1 * 16 + a2 * 256 + a3 * 4096) % 16 = a0 := by omega
  have e1 : (a0 + a1 * 16 + a2 * 256 + a3 * 4096) / 16 % 16 = a1 := by omega
  have e2 : (a0 + a1 * 16 + a2 * 256 + a3 * 4096) / 256 % 16 = a2 := by omega
  have e3 : (a0 + a1 * 16 + a2 * 256 + a3 * 4096) / 4096 % 16 = a3 := by omega
  rw [e0, e1, e2, e3, ha0, ha1, ha2, ha3,
    inverseSbox_S_BOX_leftInv (w % 16) (by omega),
    inverseSbox_S_BOX_leftInv (w / 16 % 16) (by omega),
    inverseSbox_S_BOX_leftInv (w / 256 % 16) (by omega),
    inverseSbox_S_BOX_leftInv (w / 4096 % 16) (by omega)]
  omega

theorem heysPerm_unfold (w : Nat) :
    heysPerm w =
      0 ||| ((w >>> 0) &&& 1) <<< 0 ||| ((w >>> 1) &&& 1) <<< 4 |||
        ((w >>> 2) &&& 1) <<< 8 ||| ((w >>> 3) &&& 1) <<< 12 |||
        ((w >>> 4) &&& 1) <<< 1 ||| ((w >>> 5) &&& 1) <<< 5 |||
        ((w >>> 6) &&& 1) <<< 9 ||| ((w >>> 7) &&& 1) <<< 13 |||
        ((w >>> 8) &&& 1) <<< 2 ||| ((w >>> 9) &&& 1) <<< 6 |||
        ((w >>> 10) &&& 1) <<< 10 ||| ((w >>> 11) &&& 1) <<< 14 |||
        ((w >>> 12) &&& 1) <<< 3 ||| ((w >>> 13) &&& 1) <<< 7 |||
        ((w >>> 14) &&& 1) <<< 11 ||| ((w >>> 15) &&& 1) <<< 15 := rfl

theorem heysPerm_lt (w : Nat) : heysPerm w < 65536 := by
  have h65536 : (65536 : Nat) = 2 ^ 16 := by norm_num
  rw [heysPerm_unfold, h65536]
  repeat
    apply Nat.or_lt_two_pow
  all_goals
    first
      | exact Nat.pos_pow_of_pos 16 (by norm_num)
      | · rw [Nat.shiftLeft_eq]
          exact lt_of_le_of_lt
            (Nat.mul_le_mul_right _ Nat.and_le_right) (by norm_num)

theorem heysPerm_testBit (w j : Nat) (hj : j < 16) :
    (heysPerm w).testBit j = w.testBit (j % 4 * 4 + j / 4) := by
  rw [heysPerm_unfold]
  interval_cases j <;>
  · rw [Bool.eq_iff_iff]
    simp only [Nat.testBit_or, Nat.testBit_and, Nat.testBit_shiftLeft,
      Nat.testBit_shiftRight, Nat.zero_testBit]
    simp only [Nat.testBit_to_div_mod, Bool.or_eq_true, Bool.and_eq_true,
      decide_eq_true_eq, Bool.false_or]
    norm_num

/-- The permutation table of `_calculate_permutation` is an involution. -/
theorem heysPerm_involution (w : Nat) (hw : w < 65536) :
    heysPerm (heysPerm w) = w := by
  apply Nat.eq_of_testBit_eq
  intro j
  rcases Nat.lt_or_ge j 16 with hj | hj
  · rw [heysPerm_testBit _ j hj, heysPerm_testBit w _ (by omega)]
    congr 1
    omega
  · have hle : (2 : Nat) ^ 16 ≤ 2 ^ j := Nat.pow_le_pow_right (by norm_num) hj
    rw [Nat.testBit_lt_two_pow (lt_of_lt_of_le (by simpa using heysPerm_lt (heysPerm w)) hle),
      Nat.testBit_lt_two_pow (lt_of_lt_of_le (by simpa using hw) hle)]

theorem bswap16_lt (w : Nat) (hw : w < 65536) : bswap16 w < 65536 := by
  unfold bswap16
  omega

theorem bswap16_involution (w : Nat) (hw : w < 65536) :
    bswap16 (bswap16 w) = w := by
  unfold bswap16
  omega

theorem heysRound_lt (s : List Nat) (k w : Nat) : heysRound s k w < 65536 :=
  heysPerm_lt _

theorem heysRoundInv_round (k w : Nat) (hk : k < 65536) (hw : w < 65536) :
    heysRoundInv S_BOX k (heysRound S_BOX k w) = w := by
  unfold heysRound heysRoundInv
  have hw' : w < 2 ^ 16 := by norm_num [hw]
  have hk' : k < 2 ^ 16 := by norm_num [hk]
  have hxor : w ^^^ k < 65536 := by
    have h := @Nat.xor_lt_two_pow w k 16 hw' hk'
    norm_num at h
    exact h
  rw [heysSBlockTable_id _ hxor, heysPerm_involution _ hxor,
    heysSBlockTable_id _ hxor, Nat.xor_cancel_right]

/-- The decryption round loop is the exact inverse of the encryption round
loop, for any (byteswapped) round-key list with 16-bit entries. -/
theorem rounds_roundtrip (l : List Nat) (hl : ∀ k ∈ l, k < 65536) (w : Nat)
    (hw : w < 65536) :
    l.foldr (fun k a => heysRoundInv S_BOX k a)
      (l.foldl (fun a k => heysRound S_BOX k a) w) = w := by
  induction l generalizing w with
  | nil => simp
  | cons k t ih =>
    simp only [List.foldl_cons, List.foldr_cons]
    rw [ih (fun x hx => hl x (List.mem_cons_of_mem _ hx)) _ (heysRound_lt S_BOX k w)]
    exact heysRoundInv_round k w (hl k (List.mem_cons_self _ _)) hw

/-! ### Claim theorems -/

/-- C1: the cipher constructor's expanded S-box table does **not** satisfy
`SBOX16[w] = Σ_b S[(w >> 4b) & 0xF] << 4b`.  The fragment loop itself
(`_sbox_transformation` on a fresh array, as `s_box.calculate_sbox` runs it)
does compute exactly that formula; but `_calculate_s_block` feeds one shared
in-place-mutated array through the forward and then the inverse pass, so the
table the constructor stores (as both `s_block` and `s_block_inverse`) is
the identity.  At the failing input `w = 1` the stored table yields `1`
while the claimed formula yields `0xFFF6`. -/
theorem c1_expanded_sbox_table :
    (∀ w, w < 65536 → sBlockRaw S_BOX w = specSbox16 S_BOX w) ∧
      (∀ w, w < 65536 → heysSBlockTable S_BOX w = w) ∧
      heysSBlockTable S_BOX 1 = 1 ∧ specSbox16 S_BOX 1 = 65526 :=
  ⟨fun w hw => sBlockRaw_eq_specSbox16 S_BOX S_BOX_entries w hw,
    fun w hw => heysSBlockTable_id w hw,
    heysSBlockTable_id 1 (by norm_num),
    by decide⟩

/-- Witness for C1's bounded quantifiers at the concrete word `2`. -/
theorem c1_expanded_sbox_table_witness :
    sBlockRaw S_BOX 2 = specSbox16 S_BOX 2 ∧ heysSBlockTable S_BOX 2 = 2 :=
  ⟨c1_expanded_sbox_table.1 2 (by norm_num),
    c1_expanded_sbox_table.2.1 2 (by norm_num)⟩

/-- C2: decrypting the encryption of any 16-bit block under any non-empty
16-bit key schedule returns the block (the constructor's aliased S-box
tables are mutually inverse — both are the identity — and the permutation
is an involution, so every round is undone; the final `byteswap` in decrypt
cancels the initial one in encrypt). -/
theorem c2_decrypt_encrypt_roundtrip (keys : List Nat) (x : Nat)
    (_hne : keys ≠ []) (hk : ∀ k ∈ keys, k < 65536) (hx : x < 65536) :
    decrypt S_BOX keys (encrypt S_BOX keys x) = x := by
  unfold encrypt decrypt
  rw [Nat.xor_cancel_right]
  rw [rounds_roundtrip ((keys.map bswap16).dropLast) ?hl (bswap16 x) (bswap16_lt x hx)]
  · exact bswap16_involution x hx
  case hl =>
    intro k hkmem
    have hmem : k ∈ keys.map bswap16 := List.dropLast_subset _ hkmem
    rcases List.mem_map.mp hmem with ⟨k0, hk0, rfl⟩
    exact bswap16_lt k0 (hk k0 hk0)

/-- Witness for C2 at the spec's concrete scenario:
`S = [F,6,5,8,E,B,A,4,C,0,3,7,2,9,1,D]`,
`K = [0xFECC, 0x1488, 0xA23F, 0xE323, 0x1444, 0x2012, 0x0EAA]` (`R = 6`),
`x = 0x4213`. -/
theorem c2_decrypt_encrypt_roundtrip_witness :
    decrypt S_BOX [65228, 5256, 41535, 58147, 5188, 8210, 3754]
      (encrypt S_BOX [65228, 5256, 41535, 58147, 5188, 8210, 3754] 16915) =
      16915 :=
  c2_decrypt_encrypt_roundtrip [65228, 5256, 41535, 58147, 5188, 8210, 3754]
    16915 (by decide) (by decide) (by decide)

/-- C3: the permutation table is an involution on all 65536 words, and the
diagonal mask `0x8421 = 33825` is a fixed point. -/
theorem c3_permutation_involution :
    (∀ w, w < 65536 → heysPerm (heysPerm w) = w) ∧ heysPerm 33825 = 33825 :=
  ⟨fun w hw => heysPerm_involution w hw, by decide⟩

/-- Witness for C3's bounded quantifier at the concrete word `0x2B12`. -/
theorem c3_permutation_involution_witness :
    heysPerm (heysPerm 11026) = 11026 :=
  c3_permutation_involution.1 11026 (by norm_num)

/-- The ±1 sign sum over a list counts matches minus mismatches. -/
theorem signSum_eq_countP (l : List Nat) (p : Nat → Prop) [DecidablePred p] :
    (l.map (fun x => if p x then (1 : ℚ) else -1)).sum =
      2 * (l.countP (fun x => decide (p x)) : ℚ) - l.length := by
  induction l with
  | nil => simp
  | cons a t ih =>
    by_cases hp : p a <;>
      simp [List.countP_cons, hp, ih] <;> push_cast <;> ring

/-- The spec's squared-correlation LAT is the square of one eighth of the
bias matrix that `utilities.sbox_linear_approximations` actually returns. -/
theorem specLP_eq_of_sboxLinearApproximations (s : List Nat) (a b : Nat) :
    specLP s a b = ((sboxLinearApproximations s a b : ℚ) / 8) ^ 2 := by
  unfold specLP sboxLinearApproximations
  rw [signSum_eq_countP]
  have hcount : (List.range 16).countP
        (fun x => decide (bitwiseDot a x = bitwiseDot b (s.getD x 0))) =
      (List.range 16).countP
        (fun x => bitwiseDot a x == bitwiseDot b (s.getD x 0)) := by
    apply List.countP_congr
    intro x _
    simp
  rw [hcount]
  push_cast
  have hlen : ((List.range 16).length : ℚ) = 16 := by simp
  rw [hlen]
  ring

/-- C4 counterexample: at `(α, β) = (0, 0)` the program's LAT entry is `8`
(the match count `16` minus `8`), not the claimed squared correlation
`((2·16-16)/16)² = 1`. -/
theorem c4_lat_counterexample :
    (sboxLinearApproximations S_BOX 0 0 : ℚ) ≠ specLP S_BOX 0 0 := by
  have h1 : sboxLinearApproximations S_BOX 0 0 = 8 := by decide
  have h2 : specLP S_BOX 0 0 = 1 := by
    rw [specLP_eq_of_sboxLinearApproximations, h1]
    norm_num
  rw [h1, h2]
  norm_num

/-- C4 amended: the working LAT (`utilities.sbox_linear_approximations`)
returns the signed bias count `m − 8` (`m` the number of parity matches);
the spec's squared correlation is `((m−8)/8)²`, every entry lies in
`[-8, 8]`, the `(0,0)` entry is `8`, and `L[α,0] = 0` for `α ≠ 0`. -/
theorem c4_lat_amended :
    (∀ s a b, specLP s a b = ((sboxLinearApproximations s a b : ℚ) / 8) ^ 2) ∧
      (∀ s a b, -8 ≤ sboxLinearApproximations s a b ∧
        sboxLinearApproximations s a b ≤ 8) ∧
      sboxLinearApproximations S_BOX 0 0 = 8 ∧
      (∀ a, a < 16 → a ≠ 0 → sboxLinearApproximations S_BOX a 0 = 0) := by
  refine ⟨specLP_eq_of_sboxLinearApproximations, fun s a b => ?_, by decide, by decide⟩
  unfold sboxLinearApproximations
  have h : (List.range 16).countP
      (fun x => bitwiseDot a x == bitwiseDot b (s.getD x 0)) ≤ 16 := by
    have hc := @List.countP_le_length Nat
      (fun x => bitwiseDot a x == bitwiseDot b (s.getD x 0)) (List.range 16)
    simpa using hc
  omega

/-- Witness for C4's bounded quantifier at the concrete mask `α = 3`. -/
theorem c4_lat_amended_witness : sboxLinearApproximations S_BOX 3 0 = 0 :=
  c4_lat_amended.2.2.2 3 (by norm_num) (by norm_num)

theorem dedup_replicate (c n : Nat) (hn : n ≠ 0) :
    (List.replicate n c).dedup = [c] := by
  induction n with
  | zero => omega
  | succ n ih =>
    cases n with
    | zero => simp
    | succ m =>
      rw [List.replicate_succ, List.dedup_cons_of_mem (by simp)]
      exact ih (by omega)

theorem approximationProbability_one (γ β : Nat) :
    approximationProbability (fun _ _ => 1) γ β = 1 := by
  simp [approximationProbability, List.range_succ]

/-- One frontier round on a one-entry dict and a constant draw sample:
the single drawn mask `c` accumulates `n · p · q` and survives iff that
exceeds the threshold. -/
theorem bbRound_singleton (lat : Nat → Nat → ℚ) (perm : Nat → Nat) (θ : ℚ)
    (γ c n : Nat) (p : ℚ) (hn : n ≠ 0) :
    bbRound lat perm θ [(γ, p)] (List.replicate n c) =
      if θ < (n : ℚ) * (p * approximationProbability lat γ (perm c)) then
        [(c, (n : ℚ) * (p * approximationProbability lat γ (perm c)))]
      else [] := by
  unfold bbRound
  rw [if_neg (by simp), dedup_replicate c n hn]
  simp only [List.filterMap_cons, List.filterMap_nil, List.map_cons,
    List.map_nil, List.sum_cons, List.sum_nil, List.count_replicate_self,
    add_zero]
  by_cases hθ : θ < (n : ℚ) * (p * approximationProbability lat γ (perm c)) <;>
    simp [hθ]

/-- With constant per-round samples of a non-zero mask `c` and the constant-1
LAT, every frontier round multiplies the single surviving probability by the
sample size, so after `r` rounds the frontier is `{c : n^r}` — the exponent
counts how many times the expansion step ran. -/
theorem branchBound_const_draws (n c α : Nat) (hn : 0 < n) (r : Nat)
    (hr : 0 < r) :
    branchBound (fun _ _ => 1) heysPerm α 0 r (fun _ => List.replicate n c) =
      [(c, (n : ℚ) ^ r)] := by
  induction r with
  | zero => omega
  | succ r ih =>
    unfold branchBound at ih ⊢
    rw [List.range_succ, List.foldl_append, List.foldl_cons, List.foldl_nil]
    rcases Nat.eq_zero_or_pos r with hr0 | hrpos
    · subst hr0
      simp only [List.range_zero, List.foldl_nil]
      rw [bbRound_singleton _ _ _ _ _ _ _ (by omega), approximationProbability_one]
      rw [if_pos (by positivity)]
      norm_num
    · rw [ih hrpos, bbRound_singleton _ _ _ _ _ _ _ (by omega),
        approximationProbability_one]
      rw [if_pos (by positivity)]
      rw [mul_one, ← pow_succ']

/-- Every key of a frontier round's output is one of that round's drawn
masks. -/
theorem bbRound_keys_subset (lat : Nat → Nat → ℚ) (perm : Nat → Nat) (θ : ℚ)
    (prev : List (Nat × ℚ)) (draws : List Nat) :
    ∀ kv ∈ bbRound lat perm θ prev draws, kv.1 ∈ draws.dedup := by
  intro kv hkv
  unfold bbRound at hkv
  split at hkv
  · simp at hkv
  · rcases List.mem_filterMap.mp hkv with ⟨β, hβ, hsome⟩
    split at hsome
    · cases hsome
      exact hβ
    · cases hsome

/-- C5 counterexample.  First conjunct: with the concrete (legal) sample
`replicate 10000 1`, the round's candidate dict keys are the deduplicated
draws `[1]`, so the non-zero output mask `β = 2 ∈ [1, 65536)` is never
considered — `branch_bound` does not enumerate all betas.  Second conjunct:
two runs with identical inputs `(S, P, α, R, threshold)` but different RNG
draws return different maps, so the result is not a function of those inputs
alone. -/
theorem c5_exact_default_counterexample :
    2 ∉ (List.replicate 10000 (1 : Nat)).dedup ∧
      branchBound (fun _ _ => 1) heysPerm 1 0 6
          (fun _ => List.replicate 10000 1) ≠
        branchBound (fun _ _ => 1) heysPerm 1 0 6
          (fun _ => List.replicate 10000 2) := by
  constructor
  · rw [dedup_replicate 1 10000 (by norm_num)]
    simp
  · rw [branchBound_const_draws 10000 1 1 (by norm_num) 6 (by norm_num),
      branchBound_const_draws 10000 2 1 (by norm_num) 6 (by norm_num)]
    simp

/-- C5 amended: `branch_bound` samples 10000 random betas per round
(`randint(low=1, high=1 << 16, size=10000)`; the exhaustive
`arange(1, 1 << 16)` is commented out and there is no opt-in switch), so
every key of the returned map comes from the final round's (deduplicated)
draws, of which there are at most 10000 — fewer than the 65535 non-zero
masks; the result is a deterministic function of the inputs *and* the
drawn samples. -/
theorem c5_sampling_amended (lat : Nat → Nat → ℚ) (perm : Nat → Nat)
    (α : Nat) (θ : ℚ) (r : Nat) (draws : Nat → List Nat) (hr : 0 < r)
    (hlen : ∀ i, (draws i).length = 10000) :
    (∀ kv ∈ branchBound lat perm α θ r draws, kv.1 ∈ (draws (r - 1)).dedup) ∧
      (draws (r - 1)).dedup.length ≤ 10000 := by
  constructor
  · intro kv hkv
    obtain ⟨r', rfl⟩ : ∃ r', r = r' + 1 := ⟨r - 1, by omega⟩
    unfold branchBound at hkv
    rw [List.range_succ, List.foldl_append, List.foldl_cons, List.foldl_nil]
      at hkv
    simpa using bbRound_keys_subset _ _ _ _ _ kv hkv
  · calc (draws (r - 1)).dedup.length ≤ (draws (r - 1)).length :=
          (List.dedup_sublist _).length_le
    _ = 10000 := hlen _

/-- Witness for C5's amended statement at one round and constant draws. -/
theorem c5_sampling_amended_witness :
    (∀ kv ∈ branchBound (fun _ _ => 1) heysPerm 1 0 1
        (fun _ => List.replicate 10000 3),
      kv.1 ∈ (List.replicate 10000 (3 : Nat)).dedup) ∧
      (List.replicate 10000 (3 : Nat)).dedup.length ≤ 10000 :=
  c5_sampling_amended (fun _ _ => 1) heysPerm 1 0 1
    (fun _ => List.replicate 10000 3) (by norm_num)
    (fun _ => List.length_replicate 10000 3)

/-- C6: for the seven-key schedule of the scenario (`R = 6` rounds) the
frontier-expansion step of `branch_bound` runs `range(heys.rounds)` — i.e.
`R = 6` — times, not the claimed `R − 1 = 5: with constant samples and the
constant-1 LAT the surviving probability is the sample size raised to the
number of expansions, and it comes out as `10000^6`, not `10000^5`. -/
theorem c6_expansions_run_R_times :
    branchBound (fun _ _ => 1) heysPerm 1 0 6
        (fun _ => List.replicate 10000 1) = [(1, (10000 : ℚ) ^ 6)] ∧
      (10000 : ℚ) ^ 6 ≠ (10000 : ℚ) ^ 5 :=
  ⟨branchBound_const_draws 10000 1 1 (by norm_num) 6 (by norm_num),
    by norm_num⟩

theorem argsortTopKeys_length (score : Nat → Nat) (topKeys : Nat)
    (h : topKeys ≤ 65536) :
    (argsortTopKeys score topKeys).length = topKeys := by
  unfold argsortTopKeys
  rw [List.length_drop, (List.mergeSort_perm _ _).length_eq, List.length_range]
  omega

theorem m2Alpha_one (s : List Nat) (α : Nat) (betas : List Nat)
    (X Y : List Nat) (topKeys : Nat) :
    m2Alpha s α betas X Y topKeys 1 = keySearchProcess s α betas X Y topKeys := by
  unfold m2Alpha
  simp [List.range_succ]

/-- Concatenating the `P` contiguous slices of size `q` recovers the first
`P·q` elements of the list. -/
theorem slices_flatMap_take {α : Type} (l : List α) (q : Nat) :
    ∀ n, (List.range n).flatMap (fun pid => (l.drop (pid * q)).take q) =
      l.take (n * q) := by
  intro n
  induction n with
  | zero => simp
  | succ n ih =>
    rw [List.range_succ, List.flatMap_append, ih]
    have h1 : List.flatMap [n] (fun pid => (l.drop (pid * q)).take q) =
        (l.drop (n * q)).take q := by simp
    have h2 : (l.drop (n * q)).take q = (l.take (n * q + q)).drop (n * q) :=
      List.take_drop (n * q) q l
    have h3 : l.take (n * q) = (l.take (n * q + q)).take (n * q) := by
      rw [List.take_take]
      congr 1
      omega
    rw [h1, h2, h3, List.take_append_drop, Nat.succ_mul]

/-- C7 counterexample: with a single β and 8 worker processes,
`betas_split = 1 // 8 = 0`, every worker receives an empty slice and nothing
is emitted, while the single-process run emits its 100 top keys — the
multisets of emitted candidates differ. -/
theorem c7_partition_counterexample :
    ((m2Alpha S_BOX 15 [1] [] [] 100 1 : List Nat) : Multiset Nat) ≠
      ((m2Alpha S_BOX 15 [1] [] [] 100 8 : List Nat) : Multiset Nat) := by
  intro h
  have hcard := congrArg Multiset.card h
  rw [Multiset.coe_card, Multiset.coe_card] at hcard
  have h8 : m2Alpha S_BOX 15 [1] [] [] 100 8 = [] := rfl
  have h1 : (m2Alpha S_BOX 15 [1] [] [] 100 1).length = 100 := by
    rw [m2Alpha_one]
    unfold keySearchProcess
    simp only [List.flatMap_cons, List.flatMap_nil, List.append_nil]
    exact argsortTopKeys_length _ 100 (by norm_num)
  rw [h8, h1] at hcard
  simp at hcard

/-- C7 amended: whenever the number of worker processes divides the number
of betas in the α-bucket (in particular the slices then partition the betas
exactly, no remainder being dropped), the parallel run emits exactly the
same candidate list — hence the same multiset — as the single-process run. -/
theorem c7_partition_divisible (s : List Nat) (α : Nat) (X Y : List Nat)
    (topKeys : Nat) (betas : List Nat) (P : Nat) (hP : 0 < P)
    (hdvd : P ∣ betas.length) :
    m2Alpha s α betas X Y topKeys P = m2Alpha s α betas X Y topKeys 1 := by
  obtain ⟨q, hq⟩ := hdvd
  have hdiv : betas.length / P = q := by
    rw [hq]
    exact Nat.mul_div_cancel_left q hP
  rw [m2Alpha_one]
  unfold m2Alpha keySearchProcess
  rw [hdiv, ← List.flatMap_assoc, slices_flatMap_take betas q P, ← hq,
    List.take_length]

/-- Witness for C7's amended statement: two betas split over two workers. -/
theorem c7_partition_divisible_witness :
    m2Alpha S_BOX 15 [3, 5] [] [] 7 2 = m2Alpha S_BOX 15 [3, 5] [] [] 7 1 :=
  c7_partition_divisible S_BOX 15 [] [] 7 [3, 5] 2 (by norm_num) (by norm_num)

theorem bitwiseDot_le_one (x y : Nat) : bitwiseDot x y ≤ 1 := Nat.and_le_right

theorem xor_le_one {a b : Nat} (ha : a ≤ 1) (hb : b ≤ 1) : a ^^^ b ≤ 1 := by
  interval_cases a <;> interval_cases b <;> decide

/-- The `where(correlation == 0, 1, -1)` sum of `_key_search_process` in
absolute value equals `|Σ (-1)^correlation|`, the claim's formula. -/
theorem m2Score_eq_claimT (s : List Nat) (α β k : Nat) (X Y : List Nat) :
    m2Score s α β k X Y = (m2ClaimT s α β k X Y).natAbs := by
  unfold m2Score m2ClaimT
  congr 2
  apply List.map_congr_left
  intro xy _
  have hle : bitwiseDot α (heysPerm (heysSBlockTable s (xy.1 ^^^ k))) ^^^
      bitwiseDot β xy.2 ≤ 1 :=
    xor_le_one (bitwiseDot_le_one _ _) (bitwiseDot_le_one _ _)
  set e := bitwiseDot α (heysPerm (heysSBlockTable s (xy.1 ^^^ k))) ^^^
    bitwiseDot β xy.2 with he
  interval_cases e <;> simp

theorem argsort_le_trans (score : Nat → Nat) :
    ∀ (a b c : Nat), (fun i j => decide (score i ≤ score j)) a b →
      (fun i j => decide (score i ≤ score j)) b c →
      (fun i j => decide (score i ≤ score j)) a c := by
  intro a b c hab hbc
  simp only [decide_eq_true_eq] at *
  omega

theorem argsort_le_total (score : Nat → Nat) :
    ∀ (a b : Nat), ((fun i j => decide (score i ≤ score j)) a b ||
      (fun i j => decide (score i ≤ score j)) b a) := by
  intro a b
  simp only [Bool.or_eq_true, decide_eq_true_eq]
  omega

/-- C8: (i) the score `_key_search_process` stores for every key `k` equals
`|T_k|` with `T_k = Σ_i (-1)^(parity(α, PERM[SBOX16[X_i⊕k]]) ⊕ parity(β, Y_i))`;
(ii) per β the emitted keys `argsort(scores)[-top_keys:]` are a top-`top_keys`
selection: exactly `top_keys` keys are emitted, the emitted and non-emitted
keys together are a permutation of all 65536 candidates, and every
non-emitted key scores no higher than every emitted one. -/
theorem c8_m2_scoring_and_topk :
    (∀ (s : List Nat) (α β k : Nat) (X Y : List Nat),
      m2Score s α β k X Y = (m2ClaimT s α β k X Y).natAbs) ∧
    (∀ (score : Nat → Nat) (topKeys : Nat), topKeys ≤ 65536 →
      (argsortTopKeys score topKeys).length = topKeys ∧
      (((List.range 65536).mergeSort (fun i j => score i ≤ score j)).take
          (65536 - topKeys) ++ argsortTopKeys score topKeys).Perm
        (List.range 65536) ∧
      (∀ a ∈ ((List.range 65536).mergeSort
          (fun i j => score i ≤ score j)).take (65536 - topKeys),
        ∀ b ∈ argsortTopKeys score topKeys, score a ≤ score b)) := by
  refine ⟨m2Score_eq_claimT, fun score topKeys htop => ?_⟩
  have hsorted := List.sorted_mergeSort (argsort_le_trans score)
    (argsort_le_total score) (List.range 65536)
  have hsplit : (((List.range 65536).mergeSort
        (fun i j => score i ≤ score j)).take (65536 - topKeys) ++
      ((List.range 65536).mergeSort (fun i j => score i ≤ score j)).drop
        (65536 - topKeys)) =
      (List.range 65536).mergeSort (fun i j => score i ≤ score j) :=
    List.take_append_drop _ _
  refine ⟨argsortTopKeys_length score topKeys htop, ?_, ?_⟩
  · unfold argsortTopKeys
    rw [hsplit]
    exact List.mergeSort_perm _ _
  · intro a ha b hb
    rw [← hsplit] at hsorted
    rcases List.pairwise_append.mp hsorted with ⟨_, _, hcross⟩
    have := hcross a ha b hb
    simpa using this

/-- Witness for C8 at a concrete corpus and `top_keys = 100`. -/
theorem c8_m2_scoring_and_topk_witness :
    m2Score S_BOX 15 1 0 [7] [9] = (m2ClaimT S_BOX 15 1 0 [7] [9]).natAbs ∧
      (argsortTopKeys (fun _ => 0) 100).length = 100 :=
  ⟨c8_m2_scoring_and_topk.1 S_BOX 15 1 0 [7] [9],
    (c8_m2_scoring_and_topk.2 (fun _ => 0) 100 (by norm_num)).1⟩

theorem keySearchProcess_length (s : List Nat) (α : Nat) (betas : List Nat)
    (X Y : List Nat) (topKeys : Nat) (ht : topKeys ≤ 65536) :
    (keySearchProcess s α betas X Y topKeys).length =
      betas.length * topKeys := by
  unfold keySearchProcess
  rw [List.length_flatMap]
  have hmap : betas.map (List.length ∘ fun β =>
      argsortTopKeys (fun k => m2Score s α β k X Y) topKeys) =
      betas.map (fun _ => topKeys) := by
    apply List.map_congr_left
    intro β _
    exact argsortTopKeys_length _ _ ht
  rw [hmap, List.map_const', List.sum_const_nat]

theorem sum_map_mul_const {α : Type} (l : List α) (g : α → Nat) (c : Nat) :
    (l.map (fun x => g x * c)).sum = (l.map g).sum * c := by
  induction l with
  | nil => simp
  | cons a t ih => simp [ih, Nat.add_mul]

/-- C9 counterexample: with the zero-pair corpus `([], [])` (and the
approximation quota already met, so `branch_bound` never runs), `attack`
does not stop with any error: it returns the approximations unchanged and
the key search runs, emitting its `top_keys = 100` candidates for the single
`(α, β)` approximation — there is no corpus validation and no `CorpusError`
anywhere in the code. -/
theorem c9_no_corpus_error_counterexample :
    (attack S_BOX (fun _ => []) [] [] [(15, [(1, 1)])] 1 100 1).1 =
        [(15, [(1, 1)])] ∧
      (attack S_BOX (fun _ => []) [] [] [(15, [(1, 1)])] 1 100 1).2.length =
        100 := by
  have hcalc : calculateApproximations (fun _ => [])
      [(15, [((1 : Nat), (1 : ℚ))])] 1 = [(15, [(1, 1)])] := by
    unfold calculateApproximations
    rw [if_pos (by simp [approximationsAmount])]
  constructor
  · show calculateApproximations (fun _ => []) [(15, [(1, 1)])] 1 =
      [(15, [(1, 1)])]
    exact hcalc
  · show ((calculateApproximations (fun _ => []) [(15, [(1, 1)])] 1).flatMap
      (fun ab => m2Alpha S_BOX ab.1 (ab.2.map Prod.fst) [] [] 100 1)).length = 100
    rw [hcalc]
    simp only [List.flatMap_cons, List.flatMap_nil, List.append_nil,
      List.map_cons, List.map_nil]
    rw [m2Alpha_one, keySearchProcess_length S_BOX 15 [1] [] [] 100 (by norm_num)]
    norm_num

/-- C9 amended: `attack` never inspects the corpus at entry and has no
error path: for every *equal-length* corpus `(X, Y)` — the zero-pair corpus
included — it returns the approximations (unchanged whenever the quota is
already met) and runs the key search, emitting `top_keys` candidates per
`(α, β)` approximation; no `CorpusError` (or any other error type) exists.
(The statement is restricted to equal-length corpora because only there the
element-wise corpus model is exact: a mismatched corpus is likewise not
rejected at entry, but the program then dies much later with a numpy
broadcast `ValueError` inside the first per-key score computation of a
worker — behaviour outside this embedding.) -/
theorem c9_attack_has_no_corpus_validation (s : List Nat)
    (bb : Nat → List (Nat × ℚ)) (X Y : List Nat)
    (approx : List (Nat × List (Nat × ℚ))) (maxN topKeys : Nat)
    (_hXY : X.length = Y.length)
    (hq : maxN ≤ approximationsAmount approx) (ht : topKeys ≤ 65536) :
    (attack s bb X Y approx maxN topKeys 1).1 = approx ∧
      (attack s bb X Y approx maxN topKeys 1).2.length =
        approximationsAmount approx * topKeys := by
  have hcalc : calculateApproximations bb approx maxN = approx := by
    unfold calculateApproximations
    rw [if_pos hq]
  constructor
  · show calculateApproximations bb approx maxN = approx
    exact hcalc
  · show ((calculateApproximations bb approx maxN).flatMap
        (fun ab => m2Alpha s ab.1 (ab.2.map Prod.fst) X Y topKeys 1)).length = _
    rw [hcalc, List.length_flatMap]
    have hmap : approx.map (List.length ∘ fun ab =>
        m2Alpha s ab.1 (ab.2.map Prod.fst) X Y topKeys 1) =
        approx.map (fun ab => ab.2.length * topKeys) := by
      apply List.map_congr_left
      intro ab _
      show (m2Alpha s ab.1 (ab.2.map Prod.fst) X Y topKeys 1).length = _
      rw [m2Alpha_one,
        keySearchProcess_length s ab.1 (ab.2.map Prod.fst) X Y topKeys ht,
        List.length_map]
    rw [hmap, sum_map_mul_const]
    rfl

/-- Witness for C9's amended statement at a one-pair corpus. -/
theorem c9_attack_has_no_corpus_validation_witness :
    (attack S_BOX (fun _ => []) [5] [3] [(15, [(1, 1)])] 1 100 1).1 =
        [(15, [(1, 1)])] ∧
      (attack S_BOX (fun _ => []) [5] [3] [(15, [(1, 1)])] 1 100 1).2.length =
        approximationsAmount [(15, [(1, 1)])] * 100 :=
  c9_attack_has_no_corpus_validation S_BOX (fun _ => []) [5] [3]
    [(15, [(1, 1)])] 1 100 rfl (by simp [approximationsAmount]) (by norm_num)

theorem readBuf_writeBuf_ne (σ : Store) (r r' : Nat) (b : List Nat)
    (h : r' ≠ r) : readBuf (writeBuf σ r b) r' = readBuf σ r' := by
  unfold readBuf writeBuf
  rw [List.getD_eq_getElem?_getD, List.getD_eq_getElem?_getD,
    List.getElem?_set_ne (fun he => h he.symm)]

theorem readBuf_alloc (σ : Store) (b : List Nat) (r : Nat) (h : r < σ.length) :
    readBuf (σ ++ [b]) r = readBuf σ r := by
  unfold readBuf
  rw [List.getD_eq_getElem?_getD, List.getD_eq_getElem?_getD,
    List.getElem?_append_left h]

theorem writeBuf_length (σ : Store) (r : Nat) (b : List Nat) :
    (writeBuf σ r b).length = σ.length := List.length_set σ r b

/-- One encryption round body touches only the current output buffer
(`acc.2`) and fresh allocations: every other buffer keeps its contents, the
store grows by the two allocations, and the new output ref is the first of
them. -/
theorem encryptRoundBuffers_frame (s : List Nat) (acc : Store × Nat)
    (k r : Nat) (h1 : r < acc.2) (h2 : r < acc.1.length) :
    readBuf (encryptRoundBuffers s acc k).1 r = readBuf acc.1 r ∧
      (encryptRoundBuffers s acc k).2 = acc.1.length + 1 ∧
      (encryptRoundBuffers s acc k).1.length = acc.1.length + 2 := by
  unfold encryptRoundBuffers alloc
  refine ⟨?_, ?_, ?_⟩
  · dsimp only
    rw [readBuf_alloc _ _ _ (by simp [writeBuf_length]; omega),
      readBuf_alloc _ _ _ (by simp [writeBuf_length]; omega),
      readBuf_writeBuf_ne _ _ _ _ (by omega)]
  · dsimp only
    simp [writeBuf_length]
  · dsimp only
    simp [writeBuf_length]

/-- The encryption round loop never writes to a buffer allocated before the
initial output buffer. -/
theorem encryptLoop_frame (s : List Nat) (r : Nat) (l : List Nat) :
    ∀ acc : Store × Nat, r < acc.2 → r < acc.1.length →
      readBuf (l.foldl (encryptRoundBuffers s) acc).1 r = readBuf acc.1 r ∧
        r < (l.foldl (encryptRoundBuffers s) acc).2 ∧
        r < (l.foldl (encryptRoundBuffers s) acc).1.length := by
  induction l with
  | nil => exact fun acc h1 h2 => ⟨rfl, h1, h2⟩
  | cons k t ih =>
    intro acc h1 h2
    simp only [List.foldl_cons]
    obtain ⟨hread, href, hlen⟩ := encryptRoundBuffers_frame s acc k r h1 h2
    obtain ⟨ih1, ih2, ih3⟩ := ih (encryptRoundBuffers s acc k)
      (by omega) (by omega)
    exact ⟨ih1.trans hread, ih2, ih3⟩

/-- One decryption round body likewise touches only the current output
buffer and fresh allocations. -/
theorem decryptRoundBuffers_frame (s : List Nat) (acc : Store × Nat)
    (k r : Nat) (_h1 : r < acc.2) (h2 : r < acc.1.length) :
    readBuf (decryptRoundBuffers s k acc).1 r = readBuf acc.1 r ∧
      (decryptRoundBuffers s k acc).2 = acc.1.length + 1 ∧
      (decryptRoundBuffers s k acc).1.length = acc.1.length + 2 := by
  unfold decryptRoundBuffers alloc
  refine ⟨?_, ?_, ?_⟩
  · dsimp only
    rw [readBuf_writeBuf_ne _ _ _ _ (by simp; omega),
      readBuf_alloc _ _ _ (by simp; omega), readBuf_alloc _ _ _ (by omega)]
  · dsimp only
    simp
  · dsimp only
    simp [writeBuf_length]

theorem decryptLoop_frame (s : List Nat) (r : Nat) (l : List Nat) :
    ∀ acc : Store × Nat, r < acc.2 → r < acc.1.length →
      readBuf (l.foldr (decryptRoundBuffers s) acc).1 r = readBuf acc.1 r ∧
        r < (l.foldr (decryptRoundBuffers s) acc).2 ∧
        r < (l.foldr (decryptRoundBuffers s) acc).1.length := by
  induction l with
  | nil => exact fun acc h1 h2 => ⟨rfl, h1, h2⟩
  | cons k t ih =>
    intro acc h1 h2
    simp only [List.foldr_cons]
    obtain ⟨ih1, ih2, ih3⟩ := ih acc h1 h2
    obtain ⟨hread, href, hlen⟩ :=
      decryptRoundBuffers_frame s (t.foldr (decryptRoundBuffers s) acc) k r
        ih2 ih3
    exact ⟨hread.trans ih1, by omega, by omega⟩

theorem encryptBuffers_frame (s keys : List Nat) (σ : Store) (msgRef r : Nat)
    (hr : r < σ.length) :
    readBuf (encryptBuffers s keys σ msgRef).1 r = readBuf σ r := by
  unfold encryptBuffers alloc
  dsimp only
  obtain ⟨h1, h2, h3⟩ := encryptLoop_frame s r ((keys.map bswap16).dropLast)
    (writeBuf (σ ++ [readBuf σ msgRef]) σ.length
      ((readBuf (σ ++ [readBuf σ msgRef]) σ.length).map bswap16), σ.length)
    hr (by rw [writeBuf_length]; simp; omega)
  rw [readBuf_writeBuf_ne _ _ _ _ (Nat.ne_of_lt h2), h1,
    readBuf_writeBuf_ne _ _ _ _ (Nat.ne_of_lt hr), readBuf_alloc _ _ _ hr]

theorem decryptBuffers_frame (s keys : List Nat) (σ : Store) (ctRef r : Nat)
    (hr : r < σ.length) :
    readBuf (decryptBuffers s keys σ ctRef).1 r = readBuf σ r := by
  unfold decryptBuffers alloc
  dsimp only
  obtain ⟨h1, h2, h3⟩ := decryptLoop_frame s r ((keys.map bswap16).dropLast)
    (writeBuf (σ ++ [readBuf σ ctRef]) σ.length
      ((readBuf (σ ++ [readBuf σ ctRef]) σ.length).map
        (fun w => w ^^^ (keys.map bswap16).getLastD 0)), σ.length)
    hr (by rw [writeBuf_length]; simp; omega)
  rw [readBuf_writeBuf_ne _ _ _ _ (Nat.ne_of_lt h2), h1,
    readBuf_writeBuf_ne _ _ _ _ (Nat.ne_of_lt hr), readBuf_alloc _ _ _ hr]

/-- C10: neither the constructor nor `encrypt` nor `decrypt` mutates any
buffer that existed before the call (in particular the caller's `keys`,
`message` and `ciphertext` arrays): each copies first and byteswaps/XORs
only its private copy, the table lookups allocate fresh buffers. -/
theorem c10_no_caller_array_mutation (s keys : List Nat) (σ : Store)
    (r : Nat) (hr : r < σ.length) :
    readBuf (heysInitBuffers σ r).1 r = readBuf σ r ∧
      readBuf (encryptBuffers s keys σ r).1 r = readBuf σ r ∧
      readBuf (decryptBuffers s keys σ r).1 r = readBuf σ r := by
  refine ⟨?_, encryptBuffers_frame s keys σ r r hr,
    decryptBuffers_frame s keys σ r r hr⟩
  unfold heysInitBuffers alloc
  dsimp only
  rw [readBuf_writeBuf_ne _ _ _ _ (Nat.ne_of_lt hr), readBuf_alloc _ _ _ hr]

/-- Witness for C10 on a one-buffer store. -/
theorem c10_no_caller_array_mutation_witness :
    readBuf (heysInitBuffers [[7, 8]] 0).1 0 = readBuf [[7, 8]] 0 ∧
      readBuf (encryptBuffers S_BOX [1, 2] [[7, 8]] 0).1 0 =
        readBuf [[7, 8]] 0 ∧
      readBuf (decryptBuffers S_BOX [1, 2] [[7, 8]] 0).1 0 =
        readBuf [[7, 8]] 0 :=
  c10_no_caller_array_mutation S_BOX [1, 2] [[7, 8]] 0 (by norm_num)

end HeysSpec
